import Mathlib

/-!
Verification of the I/Q constellation image generation pipeline
(imgConstellation/imgGen.py).

The source exposes two entry points:

* `grayscale(symbols, i_range, q_range, img_resolution, filename)` —
  histogram binning of samples into a uint16 grid, normalised to 8 bits;
* `enhancedGrayscale(symbols, i_range, q_range, img_resolution, filename,
  power, decay)` — an exponential kernel density accumulation over all
  pixel centroids, normalised to 8 bits.

Both are shallowly embedded below.  Sample coordinates, axis ranges and the
coordinate mapping are modelled over `ℚ` (exact arithmetic in place of
float64); the kernel accumulation, which uses `sqrt` and `exp`, is modelled
over `ℝ` with the mapped coordinates coerced from `ℚ`.  The uint16 bin
counters wrap modulo 65536 exactly as numpy does, and numpy negative
indexing (an index `i` with `-n ≤ i < 0` addresses slot `i + n`, anything
below `-n` raises `IndexError`) is modelled by `pyIdx`; the binning
pipeline therefore returns an `Option`, `none` standing for the raised
`IndexError`.  The final unsafe cast of the nonnegative normalised float64
grid to uint8 is truncation toward zero, i.e. `Int.floor` on the exact
value.
-/

namespace ImgGen

/-- Geometry arguments shared by both entry points: the I range
`(i_range[0], i_range[1])`, the Q range `(q_range[0], q_range[1])` and the
image resolution `(img_resolution[0], img_resolution[1]) = (W, H)`. -/
structure Cfg where
  iMin : ℚ
  iMax : ℚ
  qMin : ℚ
  qMax : ℚ
  W : ℕ
  H : ℕ

/-- A sample: real part `I`, imaginary part `Q`. -/
abbrev Sample := ℚ × ℚ

/-- Vertical coordinate map of `grayscale`:
`y_samples = (i_samples + np.abs(i_range[0])) * img_resolution[1] / (i_range[1] - i_range[0])`. -/
def gMapY (c : Cfg) (i : ℚ) : ℚ :=
  (i + |c.iMin|) * c.H / (c.iMax - c.iMin)

/-- Horizontal coordinate map of `grayscale`:
`x_samples = - (q_samples - q_range[1]) * img_resolution[0] / (q_range[1] - q_range[0])`. -/
def gMapX (c : Cfg) (q : ℚ) : ℚ :=
  -(q - c.qMax) * c.W / (c.qMax - c.qMin)

/-- Vertical coordinate map of `enhancedGrayscale` (textually identical to
the one in `grayscale`). -/
def eMapY (c : Cfg) (i : ℚ) : ℚ :=
  (i + |c.iMin|) * c.H / (c.iMax - c.iMin)

/-- Horizontal coordinate map of `enhancedGrayscale` (textually identical
to the one in `grayscale`). -/
def eMapX (c : Cfg) (q : ℚ) : ℚ :=
  -(q - c.qMax) * c.W / (c.qMax - c.qMin)

/-- The mapping as stated by the specification:
`y = (i + |i_min|) * H / (i_max - i_min)`. -/
def specMapY (c : Cfg) (i : ℚ) : ℚ :=
  (i + |c.iMin|) * c.H / (c.iMax - c.iMin)

/-- The mapping as stated by the specification:
`x = -(q - q_max) * W / (q_max - q_min)`. -/
def specMapX (c : Cfg) (q : ℚ) : ℚ :=
  -(q - c.qMax) * c.W / (c.qMax - c.qMin)

/-- Quantised (floored) pixel coordinates of every sample, in input order:
`np.floor` applied to the mapped coordinates, then `astype(int)`. -/
def gPairs (c : Cfg) (samples : List Sample) : List (ℤ × ℤ) :=
  samples.map (fun s => (⌊gMapX c s.2⌋, ⌊gMapY c s.1⌋))

/-- Clipping stage of `grayscale`: first delete the entries with
`x_samples >= img_resolution[0]`, then from the remainder delete the
entries with `y_samples >= img_resolution[1]`. -/
def gKept (c : Cfg) (samples : List Sample) : List (ℤ × ℤ) :=
  ((gPairs c samples).filter (fun p => decide (p.1 < (c.W : ℤ)))).filter
    (fun p => decide (p.2 < (c.H : ℤ)))

/-- Numpy integer indexing semantics on an axis of length `n`: an index in
`[0, n)` addresses itself, an index in `[-n, 0)` wraps to `i + n`, and
anything else raises `IndexError` (modelled as `none`). -/
def pyIdx (n : ℕ) (i : ℤ) : Option ℕ :=
  if 0 ≤ i ∧ i < (n : ℤ) then some i.toNat
  else if -(n : ℤ) ≤ i ∧ i < 0 then some (i + n).toNat
  else none

/-- Whether every kept sample can be binned without raising `IndexError`
in `bin_grid[x_samples[i], y_samples[i]] += 1`. -/
def gValid (c : Cfg) (samples : List Sample) : Bool :=
  (gKept c samples).all (fun p => (pyIdx c.W p.1).isSome && (pyIdx c.H p.2).isSome)

/-- Value of the uint16 accumulator `bin_grid[px]` after the binning loop
`for i in range(samples_num): bin_grid[x_samples[i], y_samples[i]] += 1`:
each hit increments with wraparound modulo `2^16`.  Cells are independent,
so the per-cell fold over the kept samples reproduces the loop. -/
def gCell (c : Cfg) (samples : List Sample) (px : ℕ × ℕ) : ℕ :=
  (gKept c samples).foldl
    (fun a p =>
      if pyIdx c.W p.1 = some px.1 ∧ pyIdx c.H p.2 = some px.2 then (a + 1) % 65536 else a)
    0

/-- All pixel index pairs of a `W × H` grid. -/
def cells (W H : ℕ) : List (ℕ × ℕ) :=
  (List.range W).flatMap (fun x => (List.range H).map (fun y => (x, y)))

/-- `np.max(bin_grid)`: the maximum over all cells of the grid (the grid is
entrywise nonnegative, so folding `max` from `0` is exact). -/
def gMax (c : Cfg) (samples : List Sample) : ℕ :=
  ((cells c.W c.H).map (gCell c samples)).foldr max 0

/-- One cell of the written raster of `grayscale`:
`normalized_grid = (bin_grid / np.max(bin_grid)) * 255` followed by the
unsafe cast to uint8, i.e. truncation of the nonnegative value. -/
def gNorm (c : Cfg) (samples : List Sample) (px : ℕ × ℕ) : ℤ :=
  ⌊((gCell c samples px : ℚ) / (gMax c samples : ℚ)) * 255⌋

/-- The `grayscale` entry point: `none` when the binning loop raises
`IndexError`, otherwise the raster handed to `Image.fromarray`. -/
def grayscale (c : Cfg) (samples : List Sample) : Option ((ℕ × ℕ) → ℤ) :=
  if gValid c samples then some (gNorm c samples) else none

/-- Continuous mapped coordinates of every sample in `enhancedGrayscale`
(no flooring there). -/
def eCoords (c : Cfg) (samples : List Sample) : List (ℚ × ℚ) :=
  samples.map (fun s => (eMapX c s.2, eMapY c s.1))

/-- Clipping stage of `enhancedGrayscale`: delete `x_samples >= W`, then
`y_samples >= H`, on the continuous coordinates. -/
def eKept (c : Cfg) (samples : List Sample) : List (ℚ × ℚ) :=
  ((eCoords c samples).filter (fun p => decide (p.1 < (c.W : ℚ)))).filter
    (fun p => decide (p.2 < (c.H : ℚ)))

/-- Contribution of one kept sample `p` to the pixel whose centroid is
`(xc, yc)`: `power * np.exp(-decay * centroid_distance)` with
`centroid_distance = np.sqrt((xc - xs)**2 + (yc - ys)**2)`. -/
noncomputable def eTerm (power decay : ℝ) (xc yc : ℝ) (p : ℚ × ℚ) : ℝ :=
  power * Real.exp (-decay * Real.sqrt ((xc - (p.1 : ℝ)) ^ 2 + (yc - (p.2 : ℝ)) ^ 2))

/-- Value of `power_grid[px]` after the triple loop: for the fixed pixel
`px`, the inner loop over samples accumulates `eTerm` onto `0.0`; the
centroid of pixel index `k` is `k + 0.5` (from
`np.arange(start=0.5, stop=resolution, step=1)`). -/
noncomputable def eCell (c : Cfg) (samples : List Sample) (power decay : ℝ) (px : ℕ × ℕ) : ℝ :=
  (eKept c samples).foldl
    (fun a p => a + eTerm power decay ((px.1 : ℝ) + 1 / 2) ((px.2 : ℝ) + 1 / 2) p) 0

/-- The kernel accumulation as stated by the specification: the sum over
all kept samples of `power * exp(-decay * sqrt((x + 0.5 - xs)^2 +
(y + 0.5 - ys)^2))`, pixel centers at half-integer offsets, every kept
sample contributing to every pixel with no cutoff radius. -/
noncomputable def specKernelCell (c : Cfg) (samples : List Sample) (power decay : ℝ) (px : ℕ × ℕ) : ℝ :=
  ((eKept c samples).map
    (fun p =>
      power * Real.exp
        (-decay * Real.sqrt (((px.1 : ℝ) + 1 / 2 - (p.1 : ℝ)) ^ 2 +
          ((px.2 : ℝ) + 1 / 2 - (p.2 : ℝ)) ^ 2)))).sum

/-- `np.max(power_grid)`. -/
noncomputable def eMax (c : Cfg) (samples : List Sample) (power decay : ℝ) : ℝ :=
  ((cells c.W c.H).map (eCell c samples power decay)).foldr max 0

/-- One cell of the written raster of `enhancedGrayscale`:
`np.floor((power_grid / np.max(power_grid)) * 255)` followed by the unsafe
cast to uint8 (exact on the already-floored value). -/
noncomputable def eNorm (c : Cfg) (samples : List Sample) (power decay : ℝ) (px : ℕ × ℕ) : ℤ :=
  ⌊(eCell c samples power decay px / eMax c samples power decay) * 255⌋

/-- The `enhancedGrayscale` entry point: the raster handed to
`Image.fromarray` (this variant never indexes the grid by a sample
coordinate, so no `IndexError` path exists). -/
noncomputable def enhancedGrayscale (c : Cfg) (samples : List Sample) (power decay : ℝ) : (ℕ × ℕ) → ℤ :=
  eNorm c samples power decay

/-- A valid pixel coordinate in the sense of the data model:
`0 ≤ x < width`, `0 ≤ y < height`. -/
def validIdx (W H : ℕ) (p : ℤ × ℤ) : Prop :=
  0 ≤ p.1 ∧ p.1 < (W : ℤ) ∧ 0 ≤ p.2 ∧ p.2 < (H : ℤ)

instance validIdxDec (W H : ℕ) (p : ℤ × ℤ) : Decidable (validIdx W H p) :=
  inferInstanceAs (Decidable (0 ≤ p.1 ∧ p.1 < (W : ℤ) ∧ 0 ≤ p.2 ∧ p.2 < (H : ℤ)))

/-- A left fold accumulating `f` over a list equals the initial value plus
the sum of the image list. -/
lemma foldl_add_eq {M : Type*} [AddCommMonoid M] {α : Type*} (f : α → M) :
    ∀ (l : List α) (a : M), l.foldl (fun x p => x + f p) a = a + (l.map f).sum
  | [], a => by simp
  | p :: l, a => by
    rw [List.foldl_cons, foldl_add_eq f l (a + f p), List.map_cons, List.sum_cons, add_assoc]

/-- A left fold that conditionally increments a uint16 accumulator (with
wraparound) computes the match count modulo `2^16`. -/
lemma foldl_count_mod {α : Type*} (Q : α → Prop) [DecidablePred Q] :
    ∀ (l : List α) (a : ℕ), a < 65536 →
      l.foldl (fun x p => if Q p then (x + 1) % 65536 else x) a
        = (a + l.countP (fun p => decide (Q p))) % 65536
  | [], a, ha => by simp [Nat.mod_eq_of_lt ha]
  | p :: l, a, ha => by
    by_cases hQ : Q p
    · rw [List.foldl_cons, if_pos hQ,
        foldl_count_mod Q l ((a + 1) % 65536) (Nat.mod_lt _ (by norm_num)),
        List.countP_cons_of_pos _ _ (by simpa using hQ), Nat.mod_add_mod]
      congr 1
      omega
    · rw [List.foldl_cons, if_neg hQ, foldl_count_mod Q l a ha,
        List.countP_cons_of_neg _ _ (by simpa using hQ)]

/-- Every member of a list is bounded by the `max`-fold of the list. -/
lemma le_foldr_max {α : Type*} [LinearOrder α] {x : α} :
    ∀ (l : List α) (z : α), x ∈ l → x ≤ l.foldr max z
  | [], _, h => absurd h (List.not_mem_nil x)
  | p :: l, z, h => by
    rcases List.mem_cons.mp h with h | h
    · rw [h, List.foldr_cons]
      exact le_max_left _ _
    · exact le_trans (le_foldr_max l z h) (le_max_right _ _)

/-- The `max`-fold of a list is its seed or one of its members. -/
lemma foldr_max_mem {α : Type*} [LinearOrder α] :
    ∀ (l : List α) (z : α), l.foldr max z = z ∨ l.foldr max z ∈ l
  | [], _ => Or.inl rfl
  | p :: l, z => by
    rcases max_choice p (l.foldr max z) with h | h
    · right
      rw [List.foldr_cons, h]
      exact List.mem_cons_self _ _
    · rw [List.foldr_cons, h]
      rcases foldr_max_mem l z with h2 | h2
      · exact Or.inl h2
      · exact Or.inr (List.mem_cons_of_mem _ h2)

/-- Scaling by a nonnegative constant commutes with the `max`-fold from
zero. -/
lemma foldr_max_map_mul {α : Type*} {k : ℝ} (hk : 0 ≤ k) (f : α → ℝ) :
    ∀ l : List α, ((l.map fun x => k * f x).foldr max 0) = k * ((l.map f).foldr max 0)
  | [] => by simp
  | p :: l => by
    rw [List.map_cons, List.map_cons, List.foldr_cons, List.foldr_cons,
      foldr_max_map_mul hk f l, ← mul_max_of_nonneg _ _ hk]

/-- Multiplying every summand by a constant scales the list sum. -/
lemma sum_map_mul {α : Type*} (k : ℝ) (f : α → ℝ) :
    ∀ l : List α, (l.map fun x => k * f x).sum = k * (l.map f).sum
  | [] => by simp
  | p :: l => by simp [sum_map_mul k f l, mul_add]

/-- `List.all` is invariant under permutation of the list. -/
lemma perm_all_eq {α : Type*} {l l' : List α} (h : l.Perm l') (f : α → Bool) :
    l.all f = l'.all f := by
  by_cases hb : l'.all f = true
  · rw [hb, List.all_eq_true]
    intro x hx
    exact List.all_eq_true.mp hb x (h.mem_iff.mp hx)
  · have hl : ¬l.all f = true := fun hcontra =>
      hb (List.all_eq_true.mpr fun x hx =>
        List.all_eq_true.mp hcontra x (h.mem_iff.mpr hx))
    rw [Bool.not_eq_true] at hb hl
    rw [hb, hl]

/-- Normalising a cell that is at most the positive maximum yields a pixel
value at most 255. -/
lemma norm_floor_le {α : Type*} [LinearOrderedField α] [FloorRing α] {v M : α}
    (hv : v ≤ M) (hM : 0 < M) : ⌊v / M * 255⌋ ≤ 255 := by
  have h1 : v / M ≤ 1 := (div_le_one hM).mpr hv
  have h2 : v / M * 255 ≤ 255 := by nlinarith
  calc ⌊v / M * 255⌋ ≤ ⌊(255 : α)⌋ := Int.floor_le_floor h2
    _ = 255 := by norm_num

/-- Normalising the maximal cell yields exactly 255. -/
lemma norm_floor_at_max {α : Type*} [LinearOrderedField α] [FloorRing α] {M : α}
    (hM : M ≠ 0) : ⌊M / M * 255⌋ = 255 := by
  rw [div_self hM]
  norm_num

/-- The clipping stage of `grayscale` distributes over concatenation. -/
lemma gKept_append (c : Cfg) (l1 l2 : List Sample) :
    gKept c (l1 ++ l2) = gKept c l1 ++ gKept c l2 := by
  unfold gKept gPairs
  rw [List.map_append, List.filter_append, List.filter_append]

/-- The clipping stage of `grayscale` on a cons: the head survives exactly
when its floored coordinates are below the resolution on both axes. -/
lemma gKept_cons (c : Cfg) (s : Sample) (l : List Sample) :
    gKept c (s :: l) =
      (if ⌊gMapX c s.2⌋ < (c.W : ℤ) ∧ ⌊gMapY c s.1⌋ < (c.H : ℤ)
        then [(⌊gMapX c s.2⌋, ⌊gMapY c s.1⌋)] else []) ++ gKept c l := by
  by_cases hx : ⌊gMapX c s.2⌋ < (c.W : ℤ) <;>
    by_cases hy : ⌊gMapY c s.1⌋ < (c.H : ℤ) <;>
      simp [gKept, gPairs, List.filter_cons, hx, hy]

/-- The clipping stage of `enhancedGrayscale` distributes over
concatenation. -/
lemma eKept_append (c : Cfg) (l1 l2 : List Sample) :
    eKept c (l1 ++ l2) = eKept c l1 ++ eKept c l2 := by
  unfold eKept eCoords
  rw [List.map_append, List.filter_append, List.filter_append]

/-- The clipping stage of `enhancedGrayscale` on a cons: the head survives
exactly when its continuous coordinates are below the resolution on both
axes. -/
lemma eKept_cons (c : Cfg) (s : Sample) (l : List Sample) :
    eKept c (s :: l) =
      (if eMapX c s.2 < (c.W : ℚ) ∧ eMapY c s.1 < (c.H : ℚ)
        then [(eMapX c s.2, eMapY c s.1)] else []) ++ eKept c l := by
  by_cases hx : eMapX c s.2 < (c.W : ℚ) <;>
    by_cases hy : eMapY c s.1 < (c.H : ℚ) <;>
      simp [eKept, eCoords, List.filter_cons, hx, hy]

/-- A sample whose mapped coordinate reaches the resolution on either axis
is removed by the clipping stage of `grayscale`. -/
lemma gKept_drop (c : Cfg) (l1 l2 : List Sample) (s : Sample)
    (h : (c.W : ℚ) ≤ gMapX c s.2 ∨ (c.H : ℚ) ≤ gMapY c s.1) :
    gKept c (l1 ++ s :: l2) = gKept c (l1 ++ l2) := by
  have hnot : ¬(⌊gMapX c s.2⌋ < (c.W : ℤ) ∧ ⌊gMapY c s.1⌋ < (c.H : ℤ)) := by
    rcases h with h | h
    · exact fun hc => absurd hc.1 (not_lt.mpr (Int.le_floor.mpr (by exact_mod_cast h)))
    · exact fun hc => absurd hc.2 (not_lt.mpr (Int.le_floor.mpr (by exact_mod_cast h)))
  rw [gKept_append, gKept_append, gKept_cons, if_neg hnot, List.nil_append]

/-- A sample whose mapped coordinate reaches the resolution on either axis
is removed by the clipping stage of `enhancedGrayscale`. -/
lemma eKept_drop (c : Cfg) (l1 l2 : List Sample) (s : Sample)
    (h : (c.W : ℚ) ≤ eMapX c s.2 ∨ (c.H : ℚ) ≤ eMapY c s.1) :
    eKept c (l1 ++ s :: l2) = eKept c (l1 ++ l2) := by
  have hnot : ¬(eMapX c s.2 < (c.W : ℚ) ∧ eMapY c s.1 < (c.H : ℚ)) := by
    rcases h with h | h
    · exact fun hc => absurd hc.1 (not_lt.mpr h)
    · exact fun hc => absurd hc.2 (not_lt.mpr h)
  rw [eKept_append, eKept_append, eKept_cons, if_neg hnot, List.nil_append]

/-- The binning accumulator in closed form: the number of kept samples
that numpy indexing sends to the cell, modulo `2^16`. -/
lemma gCell_countP (c : Cfg) (samples : List Sample) (px : ℕ × ℕ) :
    gCell c samples px =
      ((gKept c samples).countP
        (fun p => decide (pyIdx c.W p.1 = some px.1 ∧ pyIdx c.H p.2 = some px.2))) % 65536 := by
  unfold gCell
  have := foldl_count_mod
    (fun p : ℤ × ℤ => pyIdx c.W p.1 = some px.1 ∧ pyIdx c.H p.2 = some px.2)
    (gKept c samples) 0 (by norm_num)
  simpa using this

/-- C3: for every input sample `(i, q)`, every I range, Q range and
resolution, both render variants map the sample to exactly the continuous
pixel-plane coordinate `y = (i + |i_min|) * H / (i_max - i_min)`,
`x = -(q - q_max) * W / (q_max - q_min)` stated by the specification, with
no special-casing when `i_min ≥ 0`. -/
theorem C3_coordinate_mapping (c : Cfg) (i q : ℚ) :
    gMapY c i = specMapY c i ∧ gMapX c q = specMapX c q ∧
      eMapY c i = specMapY c i ∧ eMapX c q = specMapX c q :=
  ⟨rfl, rfl, rfl, rfl⟩

/-- C1: with an empty sample sequence (and in general whenever nothing
survives filtering) the maximum of the accumulated grid is `0` in both
variants, so the normalisation step `grid / np.max(grid)` divides by zero.
The code raises no `EmptyOrZeroGridError` — it carries on and writes an
image — which is the divergence recorded for this claim. -/
theorem C1_empty_grid_zero_max (c : Cfg) (power decay : ℝ) :
    gMax c [] = 0 ∧ eMax c [] power decay = 0 := by
  have hg : ∀ px, gCell c [] px = 0 := by
    intro px
    simp [gCell, gKept, gPairs]
  have he : ∀ px, eCell c [] power decay px = 0 := by
    intro px
    simp [eCell, eKept, eCoords]
  constructor
  · show ((cells c.W c.H).map (gCell c [])).foldr max 0 = 0
    rcases foldr_max_mem ((cells c.W c.H).map (gCell c [])) 0 with h | h
    · exact h
    · rcases List.mem_map.mp h with ⟨px, _, hpx⟩
      rw [← hpx, hg]
  · show ((cells c.W c.H).map (eCell c [] power decay)).foldr max 0 = 0
    rcases foldr_max_mem ((cells c.W c.H).map (eCell c [] power decay)) 0 with h | h
    · exact h
    · rcases List.mem_map.mp h with ⟨px, _, hpx⟩
      rw [← hpx, he]

/-- C2: the code contains no range validation at all: at the degenerate
I range `i_min = i_max = 1` the embedded `grayscale` pipeline (total-field
division standing in for the float division by zero at the mapping step)
still runs the whole accumulation and hands a raster to the image writer
instead of failing fast with an `InvalidRangeError`. -/
theorem C2_degenerate_range_no_fast_fail :
    (grayscale ⟨1, 1, -7, 7, 2, 2⟩ [(3, 3)]).isSome = true := by
  have h : gValid ⟨1, 1, -7, 7, 2, 2⟩ [(3, 3)] = true := by
    norm_num [gValid, gKept, gPairs, gMapX, gMapY, pyIdx]
  simp [grayscale, h]

/-- C4: a sample whose mapped continuous coordinate satisfies `x ≥ W` or
`y ≥ H` contributes zero count to every grid cell of the binning variant
and zero power to every grid cell of the kernel variant: deleting it from
the input leaves every accumulated cell unchanged in both variants. -/
theorem C4_boundary_exclusion (c : Cfg) (l1 l2 : List Sample) (s : Sample)
    (power decay : ℝ)
    (h : (c.W : ℚ) ≤ gMapX c s.2 ∨ (c.H : ℚ) ≤ gMapY c s.1) :
    (∀ px, gCell c (l1 ++ s :: l2) px = gCell c (l1 ++ l2) px) ∧
      ∀ px, eCell c (l1 ++ s :: l2) power decay px = eCell c (l1 ++ l2) power decay px := by
  have he : (c.W : ℚ) ≤ eMapX c s.2 ∨ (c.H : ℚ) ≤ eMapY c s.1 := h
  constructor
  · intro px
    unfold gCell
    rw [gKept_drop c l1 l2 s h]
  · intro px
    unfold eCell
    rw [eKept_drop c l1 l2 s he]

theorem C4_boundary_exclusion_witness :
    ((2 : ℚ) ≤ gMapY ⟨-1, 1, -1, 1, 2, 2⟩ 10) ∧
      gCell ⟨-1, 1, -1, 1, 2, 2⟩ [(0, 0), (10, 0)] (0, 0) =
        gCell ⟨-1, 1, -1, 1, 2, 2⟩ [(0, 0)] (0, 0) :=
  ⟨by norm_num [gMapY],
    (C4_boundary_exclusion ⟨-1, 1, -1, 1, 2, 2⟩ [(0, 0)] [] (10, 0) 1 1
      (Or.inr (by norm_num [gMapY]))).1 (0, 0)⟩

/-- C5: in the binning variant a sample whose mapped coordinate is
negative on some axis (while under the resolution bound on both axes) is
not removed by the clipping stage — its floored pair is in the kept list
the binning loop iterates over — and that floored pair is not a valid
pixel index: the data-model bounds `0 ≤ x < W`, `0 ≤ y < H` fail at the
grid-increment step. -/
theorem C5_negative_coordinate_invalid_index (c : Cfg) (samples : List Sample) (s : Sample)
    (hmem : s ∈ samples)
    (hx : ⌊gMapX c s.2⌋ < (c.W : ℤ)) (hy : ⌊gMapY c s.1⌋ < (c.H : ℤ))
    (hneg : gMapX c s.2 < 0 ∨ gMapY c s.1 < 0) :
    (⌊gMapX c s.2⌋, ⌊gMapY c s.1⌋) ∈ gKept c samples ∧
      ¬validIdx c.W c.H (⌊gMapX c s.2⌋, ⌊gMapY c s.1⌋) := by
  constructor
  · have h1 : (⌊gMapX c s.2⌋, ⌊gMapY c s.1⌋) ∈ gPairs c samples :=
      List.mem_map_of_mem _ hmem
    exact List.mem_filter.mpr ⟨List.mem_filter.mpr ⟨h1, by simpa using hx⟩, by simpa using hy⟩
  · intro hv
    rcases hneg with h | h
    · have hf : ⌊gMapX c s.2⌋ < 0 := Int.floor_lt.mpr (by exact_mod_cast h)
      exact absurd hv.1 (not_le.mpr hf)
    · have hf : ⌊gMapY c s.1⌋ < 0 := Int.floor_lt.mpr (by exact_mod_cast h)
      exact absurd hv.2.2.1 (not_le.mpr hf)

theorem C5_negative_coordinate_invalid_index_witness :
    gMapY ⟨-1, 1, -1, 1, 2, 2⟩ (-5) < 0 ∧
      (⌊gMapX ⟨-1, 1, -1, 1, 2, 2⟩ 0⌋, ⌊gMapY ⟨-1, 1, -1, 1, 2, 2⟩ (-5)⌋) ∈
        gKept ⟨-1, 1, -1, 1, 2, 2⟩ [(-5, 0)] ∧
      ¬validIdx 2 2 (⌊gMapX ⟨-1, 1, -1, 1, 2, 2⟩ 0⌋, ⌊gMapY ⟨-1, 1, -1, 1, 2, 2⟩ (-5)⌋) := by
  have h := C5_negative_coordinate_invalid_index ⟨-1, 1, -1, 1, 2, 2⟩ [(-5, 0)] (-5, 0)
    (by simp) (by norm_num [gMapX]) (by norm_num [gMapY]) (Or.inr (by norm_num [gMapY]))
  exact ⟨by norm_num [gMapY], h.1, h.2⟩

/-- C7: in the kernel variant, for every pixel index pair inside the
resolution, the raw grid cell value equals the sum over all kept samples
of `power * exp(-decay * sqrt((x + 0.5 - xs)^2 + (y + 0.5 - ys)^2))`:
pixel centers at half-integer offsets, every kept sample contributing to
every pixel with no cutoff radius. -/
theorem C7_kernel_cell_formula (c : Cfg) (samples : List Sample) (power decay : ℝ)
    (px : ℕ × ℕ) (_hx : px.1 < c.W) (_hy : px.2 < c.H) :
    eCell c samples power decay px = specKernelCell c samples power decay px := by
  unfold eCell specKernelCell
  rw [foldl_add_eq, zero_add]
  rfl

theorem C7_kernel_cell_formula_witness :
    ((0 : ℕ) < 1) ∧
      eCell ⟨-1, 1, -1, 1, 1, 1⟩ [(0, 0)] 1 1 (0, 0) =
        specKernelCell ⟨-1, 1, -1, 1, 1, 1⟩ [(0, 0)] 1 1 (0, 0) :=
  ⟨by norm_num,
    C7_kernel_cell_formula ⟨-1, 1, -1, 1, 1, 1⟩ [(0, 0)] 1 1 (0, 0) (by norm_num) (by norm_num)⟩

/-- C9: in the kernel variant, scaling `power` by a positive constant `k`
multiplies every raw grid cell by `k` and leaves the final normalised
raster unchanged. -/
theorem C9_power_scale_invariance (c : Cfg) (samples : List Sample) (power decay k : ℝ)
    (hk : 0 < k) :
    (∀ px, eCell c samples (k * power) decay px = k * eCell c samples power decay px) ∧
      enhancedGrayscale c samples (k * power) decay = enhancedGrayscale c samples power decay := by
  have hcell : ∀ px, eCell c samples (k * power) decay px
      = k * eCell c samples power decay px := by
    intro px
    unfold eCell
    rw [foldl_add_eq, foldl_add_eq, zero_add, zero_add]
    have hmap : (eKept c samples).map
        (eTerm (k * power) decay ((px.1 : ℝ) + 1 / 2) ((px.2 : ℝ) + 1 / 2))
        = (eKept c samples).map
          (fun p => k * eTerm power decay ((px.1 : ℝ) + 1 / 2) ((px.2 : ℝ) + 1 / 2) p) :=
      List.map_congr_left (fun p _ => by unfold eTerm; ring)
    rw [hmap, sum_map_mul]
  have hmax : eMax c samples (k * power) decay = k * eMax c samples power decay := by
    unfold eMax
    have hmap : (cells c.W c.H).map (eCell c samples (k * power) decay)
        = (cells c.W c.H).map (fun px => k * eCell c samples power decay px) :=
      List.map_congr_left (fun px _ => hcell px)
    rw [hmap]
    exact foldr_max_map_mul hk.le (eCell c samples power decay) (cells c.W c.H)
  refine ⟨hcell, ?_⟩
  funext px
  show eNorm c samples (k * power) decay px = eNorm c samples power decay px
  unfold eNorm
  rw [hcell px, hmax, mul_div_mul_left _ _ hk.ne']

theorem C9_power_scale_invariance_witness :
    (0 : ℝ) < 2 ∧
      enhancedGrayscale ⟨-1, 1, -1, 1, 1, 1⟩ [(0, 0)] (2 * 1) 1 =
        enhancedGrayscale ⟨-1, 1, -1, 1, 1, 1⟩ [(0, 0)] 1 1 :=
  ⟨by norm_num,
    (C9_power_scale_invariance ⟨-1, 1, -1, 1, 1, 1⟩ [(0, 0)] 1 1 2 (by norm_num)).2⟩

/-- C10: in the binning variant the per-pixel accumulator is uint16: for
every pixel of the resolution (when, as the data model assumes, every kept
sample has nonnegative floored coordinates) the stored count equals the
number of kept samples whose floored pair is that pixel, modulo `2^16` —
65536 or more hits at one pixel silently wrap instead of saturating or
failing. -/
theorem C10_uint16_wraparound (c : Cfg) (samples : List Sample) (px : ℕ × ℕ)
    (_hx : px.1 < c.W) (_hy : px.2 < c.H)
    (hnn : ∀ p ∈ gKept c samples, 0 ≤ p.1 ∧ 0 ≤ p.2) :
    gCell c samples px =
      ((gKept c samples).countP
        (fun p => decide (p = ((px.1 : ℤ), (px.2 : ℤ))))) % 65536 := by
  rw [gCell_countP]
  congr 1
  apply List.countP_congr
  intro p hp
  have hpW : p.1 < (c.W : ℤ) := by
    have := (List.mem_filter.mp (List.mem_filter.mp hp).1).2
    simpa using this
  have hpH : p.2 < (c.H : ℤ) := by
    have := (List.mem_filter.mp hp).2
    simpa using this
  obtain ⟨hp1, hp2⟩ := hnn p hp
  have e1 : pyIdx c.W p.1 = some p.1.toNat := by simp [pyIdx, hp1, hpW]
  have e2 : pyIdx c.H p.2 = some p.2.toNat := by simp [pyIdx, hp2, hpH]
  simp only [decide_eq_true_eq, e1, e2, Option.some.injEq, Prod.ext_iff]
  constructor
  · rintro ⟨h1, h2⟩
    exact ⟨by omega, by omega⟩
  · rintro ⟨h1, h2⟩
    exact ⟨by omega, by omega⟩

theorem C10_uint16_wraparound_witness :
    ((1 : ℕ) < 2) ∧
      (∀ p ∈ gKept ⟨-1, 1, -1, 1, 2, 2⟩ [(0, 0), (0, 0)], 0 ≤ p.1 ∧ 0 ≤ p.2) ∧
      gCell ⟨-1, 1, -1, 1, 2, 2⟩ [(0, 0), (0, 0)] (1, 1) =
        ((gKept ⟨-1, 1, -1, 1, 2, 2⟩ [(0, 0), (0, 0)]).countP
          (fun p => decide (p = (((1 : ℕ) : ℤ), ((1 : ℕ) : ℤ))))) % 65536 := by
  have hk : gKept ⟨-1, 1, -1, 1, 2, 2⟩ [(0, 0), (0, 0)] = [(1, 1), (1, 1)] := by
    norm_num [gKept, gPairs, gMapX, gMapY]
  have hnn : ∀ p ∈ gKept ⟨-1, 1, -1, 1, 2, 2⟩ [(0, 0), (0, 0)], 0 ≤ p.1 ∧ 0 ≤ p.2 := by
    rw [hk]
    intro p hp
    rcases List.mem_cons.mp hp with h | h
    · simp [h]
    · simp [List.mem_singleton.mp h]
  exact ⟨by norm_num, hnn,
    C10_uint16_wraparound ⟨-1, 1, -1, 1, 2, 2⟩ [(0, 0), (0, 0)] (1, 1)
      (by norm_num) (by norm_num) hnn⟩

/-- C6: for every non-degenerate input (the accumulated grid has a
strictly positive maximum), the rendered 8-bit raster of either variant
has every cell equal to `⌊255 * cell / max(grid)⌋`, every pixel at most
255, and at least one pixel exactly 255. -/
theorem C6_normalization_max_255 (c : Cfg) (samples : List Sample) (power decay : ℝ)
    (hb : 0 < gMax c samples) (hk : 0 < eMax c samples power decay) :
    ((∀ px, gNorm c samples px = ⌊255 * (gCell c samples px : ℚ) / (gMax c samples : ℚ)⌋) ∧
      (∀ px ∈ cells c.W c.H, gNorm c samples px ≤ 255) ∧
      ∃ px ∈ cells c.W c.H, gNorm c samples px = 255) ∧
    ((∀ px, eNorm c samples power decay px =
        ⌊255 * eCell c samples power decay px / eMax c samples power decay⌋) ∧
      (∀ px ∈ cells c.W c.H, eNorm c samples power decay px ≤ 255) ∧
      ∃ px ∈ cells c.W c.H, eNorm c samples power decay px = 255) := by
  have hbQ : (0 : ℚ) < (gMax c samples : ℚ) := by exact_mod_cast hb
  refine ⟨⟨?_, ?_, ?_⟩, ⟨?_, ?_, ?_⟩⟩
  · intro px
    unfold gNorm
    congr 1
    ring
  · intro px hpx
    unfold gNorm
    have hle : (gCell c samples px : ℚ) ≤ (gMax c samples : ℚ) := by
      exact_mod_cast le_foldr_max ((cells c.W c.H).map (gCell c samples)) 0
        (List.mem_map_of_mem _ hpx)
    exact norm_floor_le hle hbQ
  · rcases foldr_max_mem ((cells c.W c.H).map (gCell c samples)) 0 with h | h
    · exact absurd h hb.ne'
    · obtain ⟨px, hpx, hval⟩ := List.mem_map.mp h
      refine ⟨px, hpx, ?_⟩
      unfold gNorm
      rw [hval]
      exact norm_floor_at_max hbQ.ne'
  · intro px
    unfold eNorm
    congr 1
    ring
  · intro px hpx
    unfold eNorm
    have hle : eCell c samples power decay px ≤ eMax c samples power decay :=
      le_foldr_max ((cells c.W c.H).map (eCell c samples power decay)) 0
        (List.mem_map_of_mem _ hpx)
    exact norm_floor_le hle hk
  · rcases foldr_max_mem ((cells c.W c.H).map (eCell c samples power decay)) 0 with h | h
    · exact absurd h hk.ne'
    · obtain ⟨px, hpx, hval⟩ := List.mem_map.mp h
      refine ⟨px, hpx, ?_⟩
      unfold eNorm
      rw [hval]
      exact norm_floor_at_max hk.ne'

theorem C6_normalization_max_255_witness :
    0 < gMax ⟨-1, 1, -1, 1, 1, 1⟩ [(0, 0)] ∧
      0 < eMax ⟨-1, 1, -1, 1, 1, 1⟩ [(0, 0)] 1 1 ∧
      ∃ px ∈ cells 1 1, gNorm ⟨-1, 1, -1, 1, 1, 1⟩ [(0, 0)] px = 255 := by
  have hkept : gKept ⟨-1, 1, -1, 1, 1, 1⟩ [(0, 0)] = [(0, 0)] := by
    norm_num [gKept, gPairs, gMapX, gMapY]
  have hcell : gCell ⟨-1, 1, -1, 1, 1, 1⟩ [(0, 0)] (0, 0) = 1 := by
    rw [gCell, hkept]
    norm_num [pyIdx]
  have hb : 0 < gMax ⟨-1, 1, -1, 1, 1, 1⟩ [(0, 0)] := by
    have hmem : gCell ⟨-1, 1, -1, 1, 1, 1⟩ [(0, 0)] (0, 0) ∈
        (cells 1 1).map (gCell ⟨-1, 1, -1, 1, 1, 1⟩ [(0, 0)]) := by
      refine List.mem_map_of_mem _ ?_
      simp [cells]
    calc (0 : ℕ) < 1 := Nat.one_pos
      _ = gCell ⟨-1, 1, -1, 1, 1, 1⟩ [(0, 0)] (0, 0) := hcell.symm
      _ ≤ gMax ⟨-1, 1, -1, 1, 1, 1⟩ [(0, 0)] :=
        le_foldr_max ((cells 1 1).map (gCell ⟨-1, 1, -1, 1, 1, 1⟩ [(0, 0)])) 0 hmem
  have hekept : eKept ⟨-1, 1, -1, 1, 1, 1⟩ [(0, 0)] = [(1 / 2, 1 / 2)] := by
    norm_num [eKept, eCoords, eMapX, eMapY]
  have hecell : 0 < eCell ⟨-1, 1, -1, 1, 1, 1⟩ [(0, 0)] 1 1 (0, 0) := by
    rw [eCell, hekept]
    simp only [List.foldl_cons, List.foldl_nil, zero_add]
    unfold eTerm
    positivity
  have hk : 0 < eMax ⟨-1, 1, -1, 1, 1, 1⟩ [(0, 0)] 1 1 := by
    have hmem : eCell ⟨-1, 1, -1, 1, 1, 1⟩ [(0, 0)] 1 1 (0, 0) ∈
        (cells 1 1).map (eCell ⟨-1, 1, -1, 1, 1, 1⟩ [(0, 0)] 1 1) := by
      refine List.mem_map_of_mem _ ?_
      simp [cells]
    exact lt_of_lt_of_le hecell
      (le_foldr_max ((cells 1 1).map (eCell ⟨-1, 1, -1, 1, 1, 1⟩ [(0, 0)] 1 1)) 0 hmem)
  exact ⟨hb, hk,
    (C6_normalization_max_255 ⟨-1, 1, -1, 1, 1, 1⟩ [(0, 0)] 1 1 hb hk).1.2.2⟩

/-- The kept list of `grayscale` is permutation-invariant in the input. -/
lemma gKept_perm (c : Cfg) {samples samples' : List Sample} (h : samples.Perm samples') :
    (gKept c samples).Perm (gKept c samples') :=
  ((h.map _).filter _).filter _

/-- The kept list of `enhancedGrayscale` is permutation-invariant in the
input. -/
lemma eKept_perm (c : Cfg) {samples samples' : List Sample} (h : samples.Perm samples') :
    (eKept c samples).Perm (eKept c samples') :=
  ((h.map _).filter _).filter _

/-- C8: permuting the input sample sequence changes neither output raster:
the whole `grayscale` result (including whether `IndexError` is raised)
and the whole `enhancedGrayscale` raster are unchanged. -/
theorem C8_order_invariance (c : Cfg) (samples samples' : List Sample) (power decay : ℝ)
    (h : samples.Perm samples') :
    grayscale c samples = grayscale c samples' ∧
      enhancedGrayscale c samples power decay = enhancedGrayscale c samples' power decay := by
  have hkp := gKept_perm c h
  have hcell : gCell c samples = gCell c samples' := by
    funext px
    rw [gCell_countP, gCell_countP, hkp.countP_eq]
  have hmax : gMax c samples = gMax c samples' := by
    unfold gMax
    rw [hcell]
  have hvalid : gValid c samples = gValid c samples' := by
    unfold gValid
    exact perm_all_eq hkp _
  have hnorm : gNorm c samples = gNorm c samples' := by
    funext px
    unfold gNorm
    rw [hcell, hmax]
  have hg : grayscale c samples = grayscale c samples' := by
    unfold grayscale
    rw [hvalid, hnorm]
  have hep := eKept_perm c h
  have hecell : eCell c samples power decay = eCell c samples' power decay := by
    funext px
    unfold eCell
    rw [foldl_add_eq, foldl_add_eq, zero_add, zero_add]
    exact (hep.map _).sum_eq
  have hemax : eMax c samples power decay = eMax c samples' power decay := by
    unfold eMax
    rw [hecell]
  have he : enhancedGrayscale c samples power decay
      = enhancedGrayscale c samples' power decay := by
    funext px
    show eNorm c samples power decay px = eNorm c samples' power decay px
    unfold eNorm
    rw [hecell, hemax]
  exact ⟨hg, he⟩

theorem C8_order_invariance_witness :
    (([((0 : ℚ), (0 : ℚ)), (1 / 4, 0)] : List Sample).Perm [(1 / 4, 0), (0, 0)]) ∧
      grayscale ⟨-1, 1, -1, 1, 2, 2⟩ [(0, 0), (1 / 4, 0)] =
        grayscale ⟨-1, 1, -1, 1, 2, 2⟩ [(1 / 4, 0), (0, 0)] := by
  have hp : (([((0 : ℚ), (0 : ℚ)), (1 / 4, 0)] : List Sample)).Perm [(1 / 4, 0), (0, 0)] :=
    List.Perm.swap _ _ _
  exact ⟨hp, (C8_order_invariance ⟨-1, 1, -1, 1, 2, 2⟩ _ _ 1 1 hp).1⟩

end ImgGen
